import Mathlib

/-!
Verification of the weekend child-care rotation program (`vacances.py`).

The embedding below mirrors the source code:
* `Date` models `datetime.date` as a (year, month, day) triple of naturals;
  `toordinal` is the proleptic-Gregorian ordinal used by `datetime`
  (`date(1,1,1)` has ordinal 1), `weekday` the Monday-0 weekday, and
  `dateLe`/`dateLt` the usual date order (Python compares dates
  componentwise, equivalently by ordinal).
* `DateCollection` models the `dict[str, set[date]]` of `DateCollection`:
  an association list of users with their date sets, in insertion order.
  `dateIsFree`, `dateIsFreeWeekend`, `appendDate` mirror `date_is_free`,
  `date_is_free_weekend` and `append`.
* `scanDates` is the sequence of dates visited by
  `for current_month in range(start.month, 13):
     for date in cal.itermonthdates(start.year, current_month):
       if date.month == current_month: ...`
  which is exactly days 1..monthlen of each month `start.month..12` of
  `start.year`, in chronological order.
* `processDate`/`scanFold`/`guess_care_weeks` mirror the body of
  `Care.guess_care_weeks`; the precondition failures of the Python code
  (the `assert first_care in self.dates`, and the `IndexError` of
  `list(self.dates.keys())[0]` on an empty collection) are modelled by
  returning `none`, both of which happen before any date is appended and
  before the `% self.nusers` is evaluated.
* `holidaysInit` mirrors `Holidays.__init__`
  (`self.public = self.dates.pop("férié", {})`).
* `monthrange` mirrors `Calendar.monthrange`.
-/

namespace Vacances

structure Date where
  year : Nat
  month : Nat
  day : Nat
deriving DecidableEq

/-- Leap-year predicate of the Gregorian calendar (as used by `datetime`). -/
def isLeap (y : Nat) : Bool :=
  decide ((y % 4 = 0 ∧ ¬ y % 100 = 0) ∨ y % 400 = 0)

/-- Number of days of month `m` of year `y`. -/
def monthLen (y m : Nat) : Nat :=
  if m = 2 then (if isLeap y then 29 else 28)
  else if m = 4 ∨ m = 6 ∨ m = 9 ∨ m = 11 then 30
  else 31

/-- Days of year `y` before the first of month `m`. -/
def daysBeforeMonth (y m : Nat) : Nat :=
  ((List.range' 1 (m - 1)).map (monthLen y)).sum

/-- Number of days in years `1..n` (so `prefixDays (y-1)` is the number of
days before January 1 of year `y`), matching `datetime`'s
`365*n + n//4 - n//100 + n//400`. -/
def prefixDays (n : Nat) : Nat :=
  365 * n + n / 4 + n / 400 - n / 100

/-- `datetime.date.toordinal`: day number in the proleptic Gregorian
calendar, with `date(1,1,1).toordinal() == 1`. -/
def toordinal (d : Date) : Nat :=
  prefixDays (d.year - 1) + daysBeforeMonth d.year d.month + d.day

/-- `datetime.date.weekday`: Monday is 0, Sunday is 6. -/
def weekday (d : Date) : Nat := (toordinal d + 6) % 7

/-- `Date.is_weekend`: `self.weekday() > 4`. -/
def isWeekend (d : Date) : Bool := decide (4 < weekday d)

/-- `Date.is_sunday`: `self.weekday() == 6`. -/
def isSunday (d : Date) : Bool := decide (weekday d = 6)

/-- Strict date order (componentwise, as `datetime.date.__lt__`). -/
def dateLt (a b : Date) : Bool :=
  decide (a.year < b.year ∨ (a.year = b.year ∧
    (a.month < b.month ∨ (a.month = b.month ∧ a.day < b.day))))

/-- Date order (componentwise, as `datetime.date.__le__`); `date >= start`
in the source is `dateLe start date`. -/
def dateLe (a b : Date) : Bool :=
  decide (a.year < b.year ∨ (a.year = b.year ∧
    (a.month < b.month ∨ (a.month = b.month ∧ a.day ≤ b.day))))

/-- The (year, month, day) triples that `datetime.date` accepts. -/
def ValidDate (d : Date) : Prop :=
  1 ≤ d.year ∧ 1 ≤ d.month ∧ d.month ≤ 12 ∧ 1 ≤ d.day ∧
    d.day ≤ monthLen d.year d.month

instance (d : Date) : Decidable (ValidDate d) := by
  unfold ValidDate; infer_instance

/-- The day after `d` (with month and year rollover). -/
def nextDate (d : Date) : Date :=
  if d.day < monthLen d.year d.month then ⟨d.year, d.month, d.day + 1⟩
  else if d.month < 12 then ⟨d.year, d.month + 1, 1⟩
  else ⟨d.year + 1, 1, 1⟩

/-- A user's set of dates (`set[date]`; only membership matters). -/
abbrev DateSet := List Date

/-- `DateCollection.dates`: one date set per user, in insertion order. -/
abbrev DateCollection := List (String × DateSet)

/-- `DateCollection.users`. -/
def usersOf (c : DateCollection) : List String := c.map Prod.fst

/-- `DateCollection.nusers`. -/
def nusers (c : DateCollection) : Nat := c.length

/-- `DateCollection.date_is_free`: `date` is in no user's set. -/
def dateIsFree (c : DateCollection) (d : Date) : Bool :=
  !(c.any fun p => p.2.contains d)

/-- `DateCollection.date_is_free_weekend`. -/
def dateIsFreeWeekend (c : DateCollection) (d : Date) : Bool :=
  isWeekend d && dateIsFree c d

/-- `d` is in user `u`'s set of collection `c`. -/
def hasDate (c : DateCollection) (u : String) (d : Date) : Bool :=
  c.any fun p => p.1 == u && p.2.contains d

/-- `DateCollection.append`: `self.dates[user] |= {date}`. -/
def appendDate (c : DateCollection) (u : String) (d : Date) : DateCollection :=
  c.map fun p =>
    if p.1 == u then (p.1, if p.2.contains d then p.2 else d :: p.2) else p

/-- The dates of month `m` of year `y` in order: what
`calendar.Calendar().itermonthdates(y, m)` yields once filtered by
`date.month == current_month`. -/
def monthDates (y m : Nat) : List Date :=
  (List.range' 1 (monthLen y m)).map fun k => ⟨y, m, k⟩

/-- `range(start.month, 13)`. -/
def scanMonths (start : Date) : List Nat :=
  List.range' start.month (13 - start.month)

/-- All dates visited by the double loop of `guess_care_weeks`, in order. -/
def scanDates (start : Date) : List Date :=
  (scanMonths start).flatMap (monthDates start.year)

/-- One iteration of the inner loop of `guess_care_weeks`: the state is the
collection together with `week_counter`. -/
def processDate (start : Date) (rot : List String)
    (acc : DateCollection × Nat) (d : Date) : DateCollection × Nat :=
  ((if dateLe start d && dateIsFreeWeekend acc.1 d then
      appendDate acc.1 (rot.getD (acc.2 % nusers acc.1) "") d
    else acc.1),
   (if isSunday d then acc.2 + 1 else acc.2))

/-- The whole scan of `guess_care_weeks`, starting from `week_counter = 0`. -/
def scanFold (c : DateCollection) (start : Date) (rot : List String) :
    DateCollection × Nat :=
  (scanDates start).foldl (processDate start rot) (c, 0)

/-- The reordered user list of `guess_care_weeks`: `first_care` first, the
remaining users in their original relative order. -/
def rotationOrder (c : DateCollection) (fc : String) : List String :=
  let us := usersOf c
  let j := us.indexOf fc
  (j :: (List.range us.length).filter fun i => i != j).map fun i => us.getD i ""

/-- Resolution of the `first_care` argument: an empty string defaults to the
first user (IndexError on an empty collection), a non-empty string must be
an existing user (`assert first_care in self.dates`). Failure is `none`. -/
def resolveFirstCare (c : DateCollection) (fc : String) : Option String :=
  if fc = "" then (usersOf c).head?
  else if fc ∈ usersOf c then some fc else none

/-- `Care.guess_care_weeks`: `none` models the precondition failures
(`AssertionError` / `IndexError`), which in the source happen before the
loop, hence before any mutation and before `% self.nusers` is evaluated. -/
def guess_care_weeks (c : DateCollection) (start : Date) (fc : String) :
    Option DateCollection :=
  match resolveFirstCare c fc with
  | none => none
  | some f => some (scanFold c start (rotationOrder c f)).1

/-- `Holidays.__init__`: `self.public = self.dates.pop("férié", {})`.
Returns the remaining user mapping together with the extracted `public`
date set. -/
def holidaysInit (dates : DateCollection) : DateCollection × DateSet :=
  match dates.find? (fun p => p.1 == "férié") with
  | some p => (dates.eraseP (fun q => q.1 == "férié"), p.2)
  | none => (dates, [])

/-- `Calendar.monthrange`: `(1, (lastday - firstday).days)` where
`firstday` is the first of the month and `lastday` the first of the next
month (of the next year for December). -/
def monthrange (year month : Nat) : Nat × Nat :=
  let nextmonth := month % 12 + 1
  let nextyear := if nextmonth = 1 then year + 1 else year
  (1, toordinal ⟨nextyear, nextmonth, 1⟩ - toordinal ⟨year, month, 1⟩)

/-- Number of Sundays of `start`'s month strictly before `start`: the
number of times the scan increments `week_counter` before reaching the
first date that is `>= start`. -/
def sundaysBeforeStart (start : Date) : Nat :=
  (monthDates start.year start.month).countP
    fun s => isSunday s && dateLt s start

/-- Number of calendar-week boundaries (Sundays) crossed from `start` to
`d` within the scanned range: `d` lies in week `weekIndex start d`,
0-indexed from `start`'s week. -/
def weekIndex (start d : Date) : Nat :=
  (scanDates start).countP
    fun s => isSunday s && (dateLe start s && dateLt s d)

/-! ## Arithmetic facts about the date model -/

lemma monthLen_pos (y m : Nat) : 0 < monthLen y m := by
  unfold monthLen
  split
  · split <;> omega
  · split <;> omega

lemma daysBeforeMonth_one (y : Nat) : daysBeforeMonth y 1 = 0 := rfl

lemma daysBeforeMonth_succ (y m : Nat) (h : 1 ≤ m) :
    daysBeforeMonth y (m + 1) = daysBeforeMonth y m + monthLen y m := by
  unfold daysBeforeMonth
  have h1 : m + 1 - 1 = (m - 1) + 1 := by omega
  rw [h1, List.range'_concat]
  have h2 : 1 + 1 * (m - 1) = m := by omega
  rw [h2]
  simp

lemma isLeap_iff (y : Nat) :
    isLeap y = true ↔ ((y % 4 = 0 ∧ ¬ y % 100 = 0) ∨ y % 400 = 0) := by
  unfold isLeap
  exact decide_eq_true_iff

lemma prefixDays_key_leap (n : Nat)
    (hl : ((n + 1) % 4 = 0 ∧ ¬ (n + 1) % 100 = 0) ∨ (n + 1) % 400 = 0) :
    365 * (n + 1) + (n + 1) / 4 + (n + 1) / 400 + n / 100
      = (365 * n + n / 4 + n / 400) + 365 + 1 + (n + 1) / 100 := by omega

lemma prefixDays_key_common (n : Nat)
    (hl : ¬ (((n + 1) % 4 = 0 ∧ ¬ (n + 1) % 100 = 0) ∨ (n + 1) % 400 = 0)) :
    365 * (n + 1) + (n + 1) / 4 + (n + 1) / 400 + n / 100
      = (365 * n + n / 4 + n / 400) + 365 + (n + 1) / 100 := by omega

lemma prefixDays_succ (n : Nat) :
    prefixDays (n + 1) =
      prefixDays n + 365 + (if isLeap (n + 1) = true then 1 else 0) := by
  have hs0 : n / 100 ≤ 365 * n + n / 4 + n / 400 := by
    have := Nat.div_le_self n 100
    omega
  have hs1 : (n + 1) / 100 ≤ 365 * (n + 1) + (n + 1) / 4 + (n + 1) / 400 := by
    have := Nat.div_le_self (n + 1) 100
    omega
  by_cases hl : isLeap (n + 1) = true
  · rw [if_pos hl]
    rw [isLeap_iff] at hl
    have key := prefixDays_key_leap n hl
    unfold prefixDays
    clear hl
    revert key hs0 hs1
    generalize 365 * (n + 1) + (n + 1) / 4 + (n + 1) / 400 = A
    generalize 365 * n + n / 4 + n / 400 = C
    generalize (n + 1) / 100 = B
    generalize n / 100 = D
    omega
  · rw [if_neg hl]
    rw [isLeap_iff] at hl
    have key := prefixDays_key_common n hl
    unfold prefixDays
    clear hl
    revert key hs0 hs1
    generalize 365 * (n + 1) + (n + 1) / 4 + (n + 1) / 400 = A
    generalize 365 * n + n / 4 + n / 400 = C
    generalize (n + 1) / 100 = B
    generalize n / 100 = D
    omega

lemma daysBeforeMonth_twelve (y : Nat) :
    daysBeforeMonth y 12 = 334 + (if isLeap y = true then 1 else 0) := by
  have hr : List.range' 1 11 = [1, 2, 3, 4, 5, 6, 7, 8, 9, 10, 11] := rfl
  unfold daysBeforeMonth
  norm_num [hr, monthLen]
  by_cases h : isLeap y = true <;> simp [h]

lemma monthLen_twelve (y : Nat) : monthLen y 12 = 31 := rfl

lemma toordinal_succ_day (y m k : Nat) :
    toordinal ⟨y, m, k + 1⟩ = toordinal ⟨y, m, k⟩ + 1 := by
  unfold toordinal
  dsimp only
  omega

lemma toordinal_succ_month (y m : Nat) (h1 : 1 ≤ m) :
    toordinal ⟨y, m + 1, 1⟩ = toordinal ⟨y, m, monthLen y m⟩ + 1 := by
  unfold toordinal
  dsimp only
  rw [daysBeforeMonth_succ y m h1]
  omega

lemma toordinal_succ_year (y : Nat) (hy : 1 ≤ y) :
    toordinal ⟨y + 1, 1, 1⟩ = toordinal ⟨y, 12, 31⟩ + 1 := by
  unfold toordinal
  dsimp only
  have e0 : daysBeforeMonth (y + 1) 1 = 0 := daysBeforeMonth_one (y + 1)
  have e1 : y + 1 - 1 = (y - 1) + 1 := by omega
  have e2 : y - 1 + 1 = y := by omega
  rw [e0, e1, prefixDays_succ, e2, daysBeforeMonth_twelve]
  split <;> omega

lemma toordinal_nextDate (d : Date) (hv : ValidDate d) :
    toordinal (nextDate d) = toordinal d + 1 := by
  obtain ⟨hy, hm1, hm2, hd1, hd2⟩ := hv
  have heta : d = (⟨d.year, d.month, d.day⟩ : Date) := rfl
  unfold nextDate
  by_cases h1 : d.day < monthLen d.year d.month
  · rw [if_pos h1]
    conv_rhs => rw [heta]
    exact toordinal_succ_day d.year d.month d.day
  · rw [if_neg h1]
    have hdl : d.day = monthLen d.year d.month := by omega
    by_cases h2 : d.month < 12
    · rw [if_pos h2]
      conv_rhs => rw [heta]
      rw [hdl]
      exact toordinal_succ_month d.year d.month hm1
    · rw [if_neg h2]
      have hm12 : d.month = 12 := by omega
      have hd31 : d.day = 31 := by
        rw [hdl, hm12, monthLen_twelve]
      conv_rhs => rw [heta]
      rw [hm12, hd31]
      exact toordinal_succ_year d.year hy

lemma weekday_nextDate (d : Date) (hv : ValidDate d) :
    weekday (nextDate d) = (weekday d + 1) % 7 := by
  unfold weekday
  rw [toordinal_nextDate d hv]
  omega

/-- C10: for every month 1..12 of a (datetime-valid) year, `monthrange`
returns `(1, n)` with `n` the exact number of days of that month of that
year, leap years included (February via `isLeap`, and December via the
wrap into January of the next year). -/
theorem monthrange_eq_monthLen (year month : Nat) (hy : 1 ≤ year)
    (h1 : 1 ≤ month) (h2 : month ≤ 12) :
    monthrange year month = (1, monthLen year month) := by
  simp only [monthrange]
  by_cases h12 : month = 12
  · subst h12
    rw [show (12 : Nat) % 12 + 1 = 1 from rfl, if_pos rfl]
    have hkey := toordinal_succ_year year hy
    have hle : toordinal ⟨year, 12, 1⟩ + 30 = toordinal ⟨year, 12, 31⟩ := by
      unfold toordinal
      dsimp only
      try omega
    rw [monthLen_twelve]
    simp only [Prod.mk.injEq]
    refine ⟨by trivial, ?_⟩
    omega
  · have hlt : month < 12 := by omega
    rw [show month % 12 + 1 = month + 1 from by rw [Nat.mod_eq_of_lt hlt],
      if_neg (by omega : ¬ (month + 1 = 1))]
    have hkey := toordinal_succ_month year month h1
    have hpos := monthLen_pos year month
    have hle : toordinal ⟨year, month, 1⟩ + (monthLen year month - 1)
        = toordinal ⟨year, month, monthLen year month⟩ := by
      unfold toordinal
      dsimp only
      try omega
    simp only [Prod.mk.injEq]
    refine ⟨by trivial, ?_⟩
    omega

/-- Witness for `monthrange_eq_monthLen`: February 2024 (a leap year). -/
theorem monthrange_eq_monthLen_witness :
    monthrange 2024 2 = (1, monthLen 2024 2) :=
  monthrange_eq_monthLen 2024 2 (by decide) (by decide) (by decide)

/-! ## Order facts about dates -/

lemma date_eq_iff (a b : Date) :
    a = b ↔ (a.year = b.year ∧ a.month = b.month ∧ a.day = b.day) := by
  cases a
  cases b
  simp

lemma dateLt_iff (a b : Date) :
    dateLt a b = true ↔ (a.year < b.year ∨ (a.year = b.year ∧
      (a.month < b.month ∨ (a.month = b.month ∧ a.day < b.day)))) := by
  unfold dateLt
  exact decide_eq_true_iff

lemma dateLe_iff (a b : Date) :
    dateLe a b = true ↔ (a.year < b.year ∨ (a.year = b.year ∧
      (a.month < b.month ∨ (a.month = b.month ∧ a.day ≤ b.day)))) := by
  unfold dateLe
  exact decide_eq_true_iff

lemma dateLt_eq_false_iff (a b : Date) :
    dateLt a b = false ↔ ¬ dateLt a b = true := by
  cases h : dateLt a b <;> simp

lemma dateLe_eq_false_iff (a b : Date) :
    dateLe a b = false ↔ ¬ dateLe a b = true := by
  cases h : dateLe a b <;> simp

lemma dateLt_irrefl (a : Date) : dateLt a a = false := by
  rw [dateLt_eq_false_iff, dateLt_iff]
  omega

lemma dateLt_asymm (a b : Date) (h : dateLt a b = true) : dateLt b a = false := by
  rw [dateLt_iff] at h
  rw [dateLt_eq_false_iff, dateLt_iff]
  omega

lemma dateLe_of_lt (a b : Date) (h : dateLt a b = true) : dateLe a b = true := by
  rw [dateLt_iff] at h
  rw [dateLe_iff]
  omega

lemma dateLe_trans (a b c : Date) (h1 : dateLe a b = true)
    (h2 : dateLe b c = true) : dateLe a c = true := by
  rw [dateLe_iff] at h1 h2 ⊢
  omega

lemma dateLt_of_le_of_lt (a b c : Date) (h1 : dateLe a b = true)
    (h2 : dateLt b c = true) : dateLt a c = true := by
  rw [dateLe_iff] at h1
  rw [dateLt_iff] at h2 ⊢
  omega

lemma dateLt_of_le_of_ne (a b : Date) (h1 : dateLe a b = true)
    (h2 : ¬ a = b) : dateLt a b = true := by
  rw [dateLe_iff] at h1
  rw [date_eq_iff] at h2
  rw [dateLt_iff]
  omega

lemma dateLe_of_not_lt (a b : Date) (h : ¬ dateLt a b = true) :
    dateLe b a = true := by
  rw [dateLt_iff] at h
  rw [dateLe_iff]
  omega

lemma month_le_of_dateLe (a b : Date) (hy : b.year = a.year)
    (h : dateLe a b = true) : a.month ≤ b.month := by
  rw [dateLe_iff] at h
  omega

/-- A valid date is strictly before its successor day. -/
lemma dateLt_nextDate_self (d : Date) : dateLt d (nextDate d) = true := by
  unfold nextDate
  split
  · rw [dateLt_iff]
    dsimp only
    omega
  · split
    · rw [dateLt_iff]
      dsimp only
      omega
    · rw [dateLt_iff]
      dsimp only
      omega

/-- Discreteness: a valid date strictly after `d` is at least `nextDate d`. -/
lemma nextDate_le_of_lt (d s : Date) (hd : ValidDate d) (hs : ValidDate s)
    (h : dateLt d s = true) : dateLe (nextDate d) s = true := by
  obtain ⟨hdy, hdm1, hdm2, hdd1, hdd2⟩ := hd
  obtain ⟨hsy, hsm1, hsm2, hsd1, hsd2⟩ := hs
  rw [dateLt_iff] at h
  unfold nextDate
  split
  · rw [dateLe_iff]
    dsimp only
    omega
  · rename_i hday
    have hdl : d.day = monthLen d.year d.month := by omega
    split
    · rename_i hmon
      rw [dateLe_iff]
      dsimp only
      -- if s is in the same year and month as d, then s.day ≤ monthLen
      -- forbids s.day > d.day = monthLen
      by_cases hys : s.year = d.year
      · by_cases hms : s.month = d.month
        · rw [hys, hms] at hsd2
          omega
        · omega
      · omega
    · rename_i hmon
      have hm12 : d.month = 12 := by omega
      rw [dateLe_iff]
      dsimp only
      by_cases hys : s.year = d.year
      · by_cases hms : s.month = d.month
        · rw [hys, hms, hm12, monthLen_twelve] at hsd2
          rw [hm12, monthLen_twelve] at hdl
          omega
        · omega
      · omega

/-- The strict order below the successor of `d` is the weak order below `d`,
for valid dates. -/
lemma dateLt_nextDate_iff (d s : Date) (hd : ValidDate d) (hs : ValidDate s) :
    dateLt s (nextDate d) = true ↔ dateLe s d = true := by
  constructor
  · intro h
    by_cases hc : dateLt d s = true
    · have := nextDate_le_of_lt d s hd hs hc
      rw [dateLe_iff] at this
      rw [dateLt_iff] at h
      omega
    · exact dateLe_of_not_lt d s hc
  · intro h
    exact dateLt_of_le_of_lt s d (nextDate d) h (dateLt_nextDate_self d)

lemma nextDate_valid (d : Date) (hd : ValidDate d) : ValidDate (nextDate d) := by
  obtain ⟨hy, hm1, hm2, hd1, hd2⟩ := hd
  unfold nextDate
  split
  · refine ⟨?_, ?_, ?_, ?_, ?_⟩ <;> dsimp only <;> omega
  · split
    · have hp := monthLen_pos d.year (d.month + 1)
      refine ⟨?_, ?_, ?_, ?_, ?_⟩ <;> dsimp only <;> omega
    · have hp : monthLen (d.year + 1) 1 = 31 := rfl
      refine ⟨?_, ?_, ?_, ?_, ?_⟩ <;> dsimp only <;> omega

/-! ## Collection facts -/

lemma usersOf_iff (c : DateCollection) (u : String) :
    u ∈ usersOf c ↔ ∃ p ∈ c, p.1 = u := by
  simp [usersOf, List.mem_map]

lemma hasDate_iff (c : DateCollection) (v : String) (x : Date) :
    hasDate c v x = true ↔ ∃ p ∈ c, p.1 = v ∧ x ∈ p.2 := by
  unfold hasDate
  rw [List.any_eq_true]
  constructor
  · rintro ⟨p, hp, hpx⟩
    rw [Bool.and_eq_true] at hpx
    refine ⟨p, hp, by simpa using hpx.1, by simpa using hpx.2⟩
  · rintro ⟨p, hp, h1, h2⟩
    exact ⟨p, hp, by simp [h1, h2]⟩

lemma hasDate_eq_false_iff (c : DateCollection) (v : String) (x : Date) :
    hasDate c v x = false ↔ ¬ hasDate c v x = true := by
  cases h : hasDate c v x <;> simp

lemma dateIsFree_iff (c : DateCollection) (x : Date) :
    dateIsFree c x = true ↔ ∀ p ∈ c, x ∉ p.2 := by
  unfold dateIsFree
  rw [Bool.not_eq_true', List.any_eq_false]
  constructor
  · intro h p hp
    have := h p hp
    simpa using this
  · intro h p hp
    simpa using h p hp

lemma dateIsFree_eq_false_iff (c : DateCollection) (x : Date) :
    dateIsFree c x = false ↔ ∃ p ∈ c, x ∈ p.2 := by
  constructor
  · intro h
    by_contra hc
    push_neg at hc
    have ht : dateIsFree c x = true := (dateIsFree_iff c x).mpr hc
    rw [ht] at h
    exact Bool.noConfusion h
  · rintro ⟨p, hp, hx⟩
    cases hf : dateIsFree c x with
    | false => rfl
    | true =>
      rw [dateIsFree_iff] at hf
      exact absurd hx (hf p hp)

lemma hasDate_false_of_free (c : DateCollection) (x : Date)
    (h : dateIsFree c x = true) (u : String) : hasDate c u x = false := by
  rw [dateIsFree_iff] at h
  rw [hasDate_eq_false_iff, hasDate_iff]
  rintro ⟨p, hp, _, hx⟩
  exact h p hp hx

lemma dateIsFree_false_of_hasDate (c : DateCollection) (u : String) (x : Date)
    (h : hasDate c u x = true) : dateIsFree c x = false := by
  rw [hasDate_iff] at h
  rw [dateIsFree_eq_false_iff]
  obtain ⟨p, hp, _, hx⟩ := h
  exact ⟨p, hp, hx⟩

lemma usersOf_appendDate (c : DateCollection) (u : String) (d : Date) :
    usersOf (appendDate c u d) = usersOf c := by
  unfold usersOf appendDate
  rw [List.map_map]
  apply List.map_congr_left
  intro p _
  dsimp only [Function.comp]
  by_cases h : p.1 == u
  · rw [if_pos h]
  · rw [if_neg h]

lemma length_appendDate (c : DateCollection) (u : String) (d : Date) :
    (appendDate c u d).length = c.length := by
  unfold appendDate
  exact List.length_map c _

lemma hasDate_appendDate (c : DateCollection) (u : String) (d : Date)
    (v : String) (x : Date) :
    hasDate (appendDate c u d) v x = true ↔
      (hasDate c v x = true ∨ (v = u ∧ x = d ∧ u ∈ usersOf c)) := by
  rw [hasDate_iff, hasDate_iff, usersOf_iff]
  unfold appendDate
  constructor
  · rintro ⟨q, hq, h1, h2⟩
    rw [List.mem_map] at hq
    obtain ⟨p, hp, hfp⟩ := hq
    by_cases hu : p.1 == u
    · rw [if_pos hu] at hfp
      have hpu : p.1 = u := by simpa using hu
      by_cases hc : p.2.contains d
      · rw [if_pos hc] at hfp
        subst hfp
        exact Or.inl ⟨p, hp, h1, h2⟩
      · rw [if_neg hc] at hfp
        subst hfp
        dsimp only at h1 h2
        rcases List.mem_cons.mp h2 with hxd | hxp
        · refine Or.inr ⟨?_, hxd, p, hp, hpu⟩
          rw [← h1]
          exact hpu
        · exact Or.inl ⟨p, hp, h1, hxp⟩
    · rw [if_neg hu] at hfp
      subst hfp
      exact Or.inl ⟨p, hp, h1, h2⟩
  · rintro (⟨p, hp, h1, h2⟩ | ⟨hv, hx, p, hp, hpu⟩)
    · refine ⟨if p.1 == u then (p.1, if p.2.contains d then p.2 else d :: p.2)
        else p, List.mem_map.mpr ⟨p, hp, rfl⟩, ?_, ?_⟩
      · by_cases hu : p.1 == u
        · rw [if_pos hu]
          exact h1
        · rw [if_neg hu]
          exact h1
      · by_cases hu : p.1 == u
        · rw [if_pos hu]
          by_cases hc : p.2.contains d
          · rw [if_pos hc]
            exact h2
          · rw [if_neg hc]
            exact List.mem_cons_of_mem d h2
        · rw [if_neg hu]
          exact h2
    · have hbu : (p.1 == u) = true := by simpa using hpu
      refine ⟨(p.1, if p.2.contains d then p.2 else d :: p.2),
        List.mem_map.mpr ⟨p, hp, by rw [if_pos hbu]⟩, ?_, ?_⟩
      · rw [hpu, hv]
      · by_cases hc : p.2.contains d
        · rw [if_pos hc, hx]
          simpa using hc
        · rw [if_neg hc, hx]
          exact List.mem_cons_self d p.2

lemma dateIsFree_appendDate_ne (c : DateCollection) (u : String) (d x : Date)
    (hne : ¬ x = d) : dateIsFree (appendDate c u d) x = dateIsFree c x := by
  cases hf : dateIsFree c x with
  | false =>
    rw [dateIsFree_eq_false_iff] at hf
    obtain ⟨p, hp, hx⟩ := hf
    have := (hasDate_appendDate c u d p.1 x).mpr (Or.inl
      ((hasDate_iff c p.1 x).mpr ⟨p, hp, rfl, hx⟩))
    exact dateIsFree_false_of_hasDate _ p.1 x this
  | true =>
    rw [dateIsFree_iff] at hf
    rw [dateIsFree_iff]
    intro q hq hx
    unfold appendDate at hq
    rw [List.mem_map] at hq
    obtain ⟨p, hp, hfp⟩ := hq
    by_cases hu : p.1 == u
    · rw [if_pos hu] at hfp
      by_cases hc : p.2.contains d
      · rw [if_pos hc] at hfp
        subst hfp
        exact hf p hp hx
      · rw [if_neg hc] at hfp
        subst hfp
        rcases List.mem_cons.mp hx with h1 | h1
        · exact hne h1
        · exact hf p hp h1
    · rw [if_neg hu] at hfp
      subst hfp
      exact hf p hp hx

lemma hasDate_appendDate_ne (c : DateCollection) (u : String) (e : Date)
    (v : String) (x : Date) (hne : ¬ x = e) :
    hasDate (appendDate c u e) v x = hasDate c v x := by
  cases h : hasDate c v x with
  | true => exact (hasDate_appendDate c u e v x).mpr (Or.inl h)
  | false =>
    cases h2 : hasDate (appendDate c u e) v x with
    | false => rfl
    | true =>
      rcases (hasDate_appendDate c u e v x).mp h2 with h3 | ⟨_, h3, _⟩
      · rw [h] at h3
        exact Bool.noConfusion h3
      · exact absurd h3 hne

lemma getD_mem_of_lt (l : List String) (i : Nat) (h : i < l.length) :
    l.getD i "" ∈ l := by
  rw [List.getD_eq_getElem l "" h]
  exact List.getElem_mem h

/-! ## Facts about the scan fold -/

/-- The week counter after folding a list of dates is the initial counter
plus the number of Sundays in the list, whatever the collection state:
the counter advances on every visited Sunday, assignments or not. -/
lemma foldl_processDate_snd (start : Date) (rot : List String) (L : List Date) :
    ∀ (c : DateCollection) (w : Nat),
      (L.foldl (processDate start rot) (c, w)).2 = w + L.countP isSunday := by
  induction L with
  | nil => intro c w; simp
  | cons e rest ih =>
    intro c w
    rw [List.foldl_cons, List.countP_cons]
    dsimp only [processDate]
    by_cases hs : isSunday e = true
    · rw [if_pos hs, if_pos hs, ih]
      omega
    · rw [if_neg hs, if_neg hs, ih]
      omega

/-- Dates present in a user's set are never removed by the fold. -/
lemma foldl_processDate_mono (start : Date) (rot : List String) (L : List Date)
    (u : String) (d : Date) :
    ∀ (c : DateCollection) (w : Nat), hasDate c u d = true →
      hasDate (L.foldl (processDate start rot) (c, w)).1 u d = true := by
  induction L with
  | nil => intro c w h; simpa using h
  | cons e rest ih =>
    intro c w h
    rw [List.foldl_cons]
    dsimp only [processDate]
    by_cases hg : (dateLe start e && dateIsFreeWeekend c e) = true
    · rw [if_pos hg]
      exact ih _ _ ((hasDate_appendDate c _ e u d).mpr (Or.inl h))
    · rw [if_neg hg]
      exact ih _ _ h

/-- The fold never changes the user list. -/
lemma foldl_processDate_usersOf (start : Date) (rot : List String)
    (L : List Date) :
    ∀ (c : DateCollection) (w : Nat),
      usersOf (L.foldl (processDate start rot) (c, w)).1 = usersOf c := by
  induction L with
  | nil => intro c w; rfl
  | cons e rest ih =>
    intro c w
    rw [List.foldl_cons]
    dsimp only [processDate]
    by_cases hg : (dateLe start e && dateIsFreeWeekend c e) = true
    · rw [if_pos hg, ih, usersOf_appendDate]
    · rw [if_neg hg, ih]

lemma foldl_processDate_length (start : Date) (rot : List String)
    (L : List Date) (c : DateCollection) (w : Nat) :
    (L.foldl (processDate start rot) (c, w)).1.length = c.length := by
  have h := foldl_processDate_usersOf start rot L c w
  have h2 := congrArg List.length h
  unfold usersOf at h2
  rw [List.length_map, List.length_map] at h2
  exact h2

/-- A date occupied in the collection is skipped for ever: membership of
that date, for every user, is exactly what it was before the fold. -/
lemma foldl_processDate_occupied (start : Date) (rot : List String)
    (L : List Date) (d : Date) :
    ∀ (c : DateCollection) (w : Nat), dateIsFree c d = false →
      (∀ u, hasDate (L.foldl (processDate start rot) (c, w)).1 u d
          = hasDate c u d) ∧
        dateIsFree (L.foldl (processDate start rot) (c, w)).1 d = false := by
  induction L with
  | nil => intro c w hocc; exact ⟨fun u => rfl, hocc⟩
  | cons e rest ih =>
    intro c w hocc
    rw [List.foldl_cons]
    dsimp only [processDate]
    by_cases hed : e = d
    · subst hed
      have hg : ¬ (dateLe start e && dateIsFreeWeekend c e) = true := by
        unfold dateIsFreeWeekend
        rw [hocc]
        simp
      rw [if_neg hg]
      exact ih c _ hocc
    · have hne : ¬ d = e := fun h => hed h.symm
      by_cases hg : (dateLe start e && dateIsFreeWeekend c e) = true
      · rw [if_pos hg]
        have hocc2 : dateIsFree (appendDate c
            (rot.getD (w % nusers c) "") e) d = false := by
          rw [dateIsFree_appendDate_ne c _ e d hne]
          exact hocc
        obtain ⟨ih1, ih2⟩ := ih _ _ hocc2
        refine ⟨fun u => ?_, ih2⟩
        rw [ih1 u, hasDate_appendDate_ne c _ e u d hne]
      · rw [if_neg hg]
        exact ih c _ hocc

/-- Characterisation of who gets a free weekend date: folding a list that
contains `d`, with `d` free in the current collection, assigns `d` to
exactly the rotation entry indexed by the week counter as it stands when
the scan reaches `d` (the initial counter plus the Sundays of the list
strictly before `d`), and to nobody else. -/
lemma foldl_processDate_free_char (start : Date) (rot : List String)
    (d : Date) (hge : dateLe start d = true) (hwe : isWeekend d = true)
    (L : List Date) :
    ∀ (c : DateCollection) (w : Nat), dateIsFree c d = true → d ∈ L →
      rot.length = c.length → 0 < rot.length →
      (∀ x ∈ rot, x ∈ usersOf c) →
      ∀ u, (hasDate (L.foldl (processDate start rot) (c, w)).1 u d = true ↔
        u = rot.getD
          ((w + (L.takeWhile fun e => !(e == d)).countP isSunday)
            % rot.length) "") := by
  induction L with
  | nil => intro c w _ hmem; exact absurd hmem (List.not_mem_nil d)
  | cons e rest ih =>
    intro c w hfree hmem hlen hpos hsub u
    rw [List.foldl_cons]
    dsimp only [processDate]
    have hnu : nusers c = rot.length := by
      unfold nusers
      omega
    by_cases hed : e = d
    · subst hed
      have hg : (dateLe start e && dateIsFreeWeekend c e) = true := by
        unfold dateIsFreeWeekend
        rw [hge, hwe, hfree]
        rfl
      rw [if_pos hg, hnu]
      have htw : List.takeWhile (fun x => !(x == e)) (e :: rest) = [] :=
        List.takeWhile_cons_of_neg (by simp)
      rw [htw]
      have hidx : w % rot.length < rot.length := Nat.mod_lt w hpos
      have htmem : rot.getD (w % rot.length) "" ∈ usersOf c :=
        hsub _ (getD_mem_of_lt rot _ hidx)
      have hhas : hasDate (appendDate c (rot.getD (w % rot.length) "") e)
          (rot.getD (w % rot.length) "") e = true :=
        (hasDate_appendDate c _ e _ e).mpr (Or.inr ⟨rfl, rfl, htmem⟩)
      have hocc : dateIsFree (appendDate c (rot.getD (w % rot.length) "") e)
          e = false :=
        dateIsFree_false_of_hasDate _ _ e hhas
      rw [(foldl_processDate_occupied start rot rest e _ _ hocc).1 u]
      rw [hasDate_appendDate]
      have hfu : hasDate c u e = false := hasDate_false_of_free c e hfree u
      rw [List.countP_nil]
      rw [Nat.add_zero]
      constructor
      · rintro (h1 | ⟨h1, _, _⟩)
        · rw [hfu] at h1
          exact Bool.noConfusion h1
        · exact h1
      · intro h1
        exact Or.inr ⟨h1, rfl, htmem⟩
    · have hne : ¬ d = e := fun h => hed h.symm
      have hmem2 : d ∈ rest := by
        rcases List.mem_cons.mp hmem with h | h
        · exact absurd h hne
        · exact h
      have htw : List.takeWhile (fun x => !(x == d)) (e :: rest)
          = e :: List.takeWhile (fun x => !(x == d)) rest :=
        List.takeWhile_cons_of_pos (by simp [hed])
      rw [htw, List.countP_cons]
      by_cases hg : (dateLe start e && dateIsFreeWeekend c e) = true
      · rw [if_pos hg]
        have hfree2 : dateIsFree (appendDate c
            (rot.getD (w % nusers c) "") e) d = true := by
          rw [dateIsFree_appendDate_ne c _ e d hne]
          exact hfree
        have hlen2 : rot.length = (appendDate c
            (rot.getD (w % nusers c) "") e).length := by
          rw [length_appendDate]
          exact hlen
        have hsub2 : ∀ x ∈ rot, x ∈ usersOf (appendDate c
            (rot.getD (w % nusers c) "") e) := by
          intro x hx
          rw [usersOf_appendDate]
          exact hsub x hx
        rw [ih _ _ hfree2 hmem2 hlen2 hpos hsub2 u]
        by_cases hs : isSunday e = true
        · rw [if_pos hs, if_pos hs]
          have : w + 1 + (List.takeWhile (fun x => !(x == d)) rest).countP
              isSunday = w + ((List.takeWhile (fun x => !(x == d))
                rest).countP isSunday + 1) := by omega
          rw [this]
        · rw [if_neg hs, if_neg hs]
          have : w + ((List.takeWhile (fun x => !(x == d)) rest).countP
              isSunday + 0) = w + (List.takeWhile (fun x => !(x == d))
                rest).countP isSunday := by omega
          rw [this]
      · rw [if_neg hg]
        rw [ih _ _ hfree hmem2 hlen hpos hsub u]
        by_cases hs : isSunday e = true
        · rw [if_pos hs, if_pos hs]
          have : w + 1 + (List.takeWhile (fun x => !(x == d)) rest).countP
              isSunday = w + ((List.takeWhile (fun x => !(x == d))
                rest).countP isSunday + 1) := by omega
          rw [this]
        · rw [if_neg hs, if_neg hs]
          have : w + ((List.takeWhile (fun x => !(x == d)) rest).countP
              isSunday + 0) = w + (List.takeWhile (fun x => !(x == d))
                rest).countP isSunday := by omega
          rw [this]

/-! ## Additional order lemmas -/

lemma dateLt_of_lt_of_le (a b c : Date) (h1 : dateLt a b = true)
    (h2 : dateLe b c = true) : dateLt a c = true := by
  rw [dateLt_iff] at h1 ⊢
  rw [dateLe_iff] at h2
  omega

lemma dateLt_false_of_le (a b : Date) (h : dateLe a b = true) :
    dateLt b a = false := by
  rw [dateLe_iff] at h
  rw [dateLt_eq_false_iff, dateLt_iff]
  omega

/-! ## Facts about the scanned date list -/

lemma mem_monthDates (y m : Nat) (d : Date) :
    d ∈ monthDates y m ↔
      (d.year = y ∧ d.month = m ∧ 1 ≤ d.day ∧ d.day ≤ monthLen y m) := by
  unfold monthDates
  rw [List.mem_map]
  constructor
  · rintro ⟨k, hk, rfl⟩
    rw [List.mem_range'_1] at hk
    refine ⟨rfl, rfl, ?_, ?_⟩ <;> dsimp only <;> omega
  · rintro ⟨h1, h2, h3, h4⟩
    refine ⟨d.day, ?_, ?_⟩
    · rw [List.mem_range'_1]
      omega
    · rw [date_eq_iff]
      refine ⟨h1.symm, h2.symm, rfl⟩

lemma mem_scanMonths (start : Date) (m : Nat) :
    m ∈ scanMonths start ↔ (start.month ≤ m ∧ m < 13) := by
  unfold scanMonths
  rw [List.mem_range'_1]
  omega

lemma mem_scanDates_iff (start : Date) (d : Date) :
    d ∈ scanDates start ↔ (d.year = start.year ∧ start.month ≤ d.month ∧
      d.month ≤ 12 ∧ 1 ≤ d.day ∧ d.day ≤ monthLen start.year d.month) := by
  unfold scanDates
  rw [List.mem_flatMap]
  constructor
  · rintro ⟨m, hm, hd⟩
    rw [mem_scanMonths] at hm
    rw [mem_monthDates] at hd
    obtain ⟨h1, h2, h3, h4⟩ := hd
    rw [← h2] at h4
    exact ⟨h1, by omega, by omega, h3, h4⟩
  · rintro ⟨h1, h2, h3, h4, h5⟩
    refine ⟨d.month, ?_, ?_⟩
    · rw [mem_scanMonths]
      omega
    · rw [mem_monthDates]
      exact ⟨h1, rfl, h4, h5⟩

lemma scanDates_valid (start d : Date) (hvs : ValidDate start)
    (h : d ∈ scanDates start) :
    ValidDate d ∧ d.year = start.year ∧ start.month ≤ d.month := by
  obtain ⟨hy, hm1, hm2, _, _⟩ := hvs
  rw [mem_scanDates_iff] at h
  obtain ⟨h1, h2, h3, h4, h5⟩ := h
  refine ⟨⟨by omega, by omega, h3, h4, by rw [h1]; exact h5⟩, h1, h2⟩

lemma monthDates_pairwise (y m : Nat) :
    (monthDates y m).Pairwise (fun a b => dateLt a b = true) := by
  have h := List.pairwise_lt_range (monthLen y m)
  unfold monthDates
  rw [List.range'_eq_map_range, List.map_map, List.pairwise_map]
  refine h.imp ?_
  intro a b hab
  rw [dateLt_iff]
  dsimp only [Function.comp]
  omega

lemma scanMonths_pairwise (start : Date) :
    (scanMonths start).Pairwise (· < ·) := by
  have h := List.pairwise_lt_range (13 - start.month)
  unfold scanMonths
  rw [List.range'_eq_map_range, List.pairwise_map]
  refine h.imp ?_
  intro a b hab
  omega

lemma flatMap_monthDates_pairwise (y : Nat) (ms : List Nat)
    (hms : ms.Pairwise (· < ·)) :
    (ms.flatMap (monthDates y)).Pairwise (fun a b => dateLt a b = true) := by
  induction ms with
  | nil =>
    rw [List.flatMap_nil]
    exact List.Pairwise.nil
  | cons m rest ih =>
    rw [List.flatMap_cons, List.pairwise_append]
    have hcons := List.pairwise_cons.mp hms
    refine ⟨monthDates_pairwise y m, ih hcons.2, ?_⟩
    intro a ha b hb
    rw [List.mem_flatMap] at hb
    obtain ⟨m2, hm2, hb2⟩ := hb
    rw [mem_monthDates] at ha hb2
    have hlt : m < m2 := hcons.1 m2 hm2
    rw [dateLt_iff]
    omega

lemma scanDates_pairwise (start : Date) :
    (scanDates start).Pairwise (fun a b => dateLt a b = true) :=
  flatMap_monthDates_pairwise start.year (scanMonths start)
    (scanMonths_pairwise start)

/-! ## Counting Sundays -/

lemma countP_takeWhile_of_sorted (L : List Date) (d : Date)
    (hs : L.Pairwise (fun a b => dateLt a b = true)) (hd : d ∈ L) :
    (L.takeWhile fun e => !(e == d)).countP isSunday
      = L.countP (fun s => isSunday s && dateLt s d) := by
  induction L with
  | nil => rfl
  | cons e rest ih =>
    have hcons := List.pairwise_cons.mp hs
    by_cases hed : e = d
    · subst hed
      have htw : List.takeWhile (fun x => !(x == e)) (e :: rest) = [] :=
        List.takeWhile_cons_of_neg (by simp)
      rw [htw, List.countP_cons]
      have h2 : rest.countP (fun s => isSunday s && dateLt s e) = 0 := by
        rw [List.countP_eq_zero]
        intro a ha hcon
        rw [Bool.and_eq_true] at hcon
        have hasym := dateLt_asymm e a (hcons.1 a ha)
        rw [hasym] at hcon
        exact Bool.noConfusion hcon.2
      rw [h2]
      simp [dateLt_irrefl]
    · have hmem2 : d ∈ rest := by
        rcases List.mem_cons.mp hd with h | h
        · exact absurd h.symm hed
        · exact h
      have htw : List.takeWhile (fun x => !(x == d)) (e :: rest)
          = e :: List.takeWhile (fun x => !(x == d)) rest :=
        List.takeWhile_cons_of_pos (by simp [hed])
      rw [htw, List.countP_cons, List.countP_cons, ih hcons.2 hmem2]
      have hlt : dateLt e d = true := hcons.1 d hmem2
      simp [hlt]

lemma countP_and_split (L : List Date) (p q : Date → Bool) :
    L.countP p = L.countP (fun x => p x && q x)
      + L.countP (fun x => p x && !(q x)) := by
  induction L with
  | nil => rfl
  | cons e rest ih =>
    simp only [List.countP_cons, ih]
    by_cases hp : p e = true <;> by_cases hq : q e = true <;>
      simp [hp, hq] <;> omega

/-- Splitting the Sundays before `d` in the scan at `start`: those before
`start` itself and those in weeks 0 .. of the rotation. -/
lemma sundaysBefore_split (start d : Date) (hge : dateLe start d = true) :
    (scanDates start).countP (fun s => isSunday s && dateLt s d)
      = (scanDates start).countP (fun s => isSunday s && dateLt s start)
        + weekIndex start d := by
  unfold weekIndex
  rw [countP_and_split (scanDates start)
    (fun s => isSunday s && dateLt s d) (fun s => dateLt s start)]
  congr 1
  · apply List.countP_congr
    intro x _
    constructor
    · intro h
      rw [Bool.and_eq_true, Bool.and_eq_true] at h
      rw [Bool.and_eq_true]
      exact ⟨h.1.1, h.2⟩
    · intro h
      rw [Bool.and_eq_true] at h
      rw [Bool.and_eq_true, Bool.and_eq_true]
      exact ⟨⟨h.1, dateLt_of_lt_of_le x start d h.2 hge⟩, h.2⟩
  · apply List.countP_congr
    intro x _
    constructor
    · intro h
      rw [Bool.and_eq_true, Bool.and_eq_true] at h
      rw [Bool.and_eq_true, Bool.and_eq_true]
      obtain ⟨⟨h1, h2⟩, h3⟩ := h
      rw [Bool.not_eq_true'] at h3
      refine ⟨h1, ?_, h2⟩
      rw [dateLt_eq_false_iff] at h3
      exact dateLe_of_not_lt x start h3
    · intro h
      rw [Bool.and_eq_true, Bool.and_eq_true] at h
      rw [Bool.and_eq_true, Bool.and_eq_true]
      obtain ⟨h1, h2, h3⟩ := h
      refine ⟨⟨h1, h3⟩, ?_⟩
      rw [Bool.not_eq_true']
      exact dateLt_false_of_le start x h2

/-- Sundays of the scan strictly before `start` all lie in `start`'s own
month. -/
lemma sundaysBeforeStart_eq_scan (start : Date) (hv : ValidDate start) :
    (scanDates start).countP (fun s => isSunday s && dateLt s start)
      = sundaysBeforeStart start := by
  obtain ⟨hy, hm1, hm2, hd1, hd2⟩ := hv
  unfold scanDates sundaysBeforeStart
  have hms : scanMonths start
      = start.month :: List.range' (start.month + 1) (12 - start.month) := by
    unfold scanMonths
    have h13 : 13 - start.month = (12 - start.month) + 1 := by omega
    rw [h13, List.range'_succ]
  rw [hms, List.flatMap_cons, List.countP_append]
  have hrest : ((List.range' (start.month + 1)
      (12 - start.month)).flatMap (monthDates start.year)).countP
        (fun s => isSunday s && dateLt s start) = 0 := by
    rw [List.countP_eq_zero]
    intro a ha hcon
    rw [List.mem_flatMap] at ha
    obtain ⟨m, hm, ha2⟩ := ha
    rw [List.mem_range'_1] at hm
    rw [mem_monthDates] at ha2
    rw [Bool.and_eq_true] at hcon
    have hlt := hcon.2
    rw [dateLt_iff] at hlt
    omega
  rw [hrest, Nat.add_zero]

/-! ## The rotation order -/

lemma getD_indexOf (l : List String) (a : String) (h : a ∈ l) :
    l.getD (l.indexOf a) "" = a := by
  induction l with
  | nil => exact absurd h (List.not_mem_nil a)
  | cons b rest ih =>
    by_cases hb : b = a
    · subst hb
      rw [List.indexOf_cons]
      simp
    · have hmem : a ∈ rest := by
        rcases List.mem_cons.mp h with h1 | h1
        · exact absurd h1.symm hb
        · exact h1
      rw [List.indexOf_cons]
      have hba : (b == a) = false := by
        simp [hb]
      rw [hba, cond_false, List.getD_cons_succ]
      exact ih hmem

lemma length_filter_ne_range (n j : Nat) (h : j < n) :
    ((List.range n).filter (fun i => i != j)).length = n - 1 := by
  induction n with
  | zero => omega
  | succ m ih =>
    rw [List.range_succ, List.filter_append]
    by_cases hj : j = m
    · subst hj
      have h1 : (List.range j).filter (fun i => i != j) = List.range j := by
        rw [List.filter_eq_self]
        intro a ha
        rw [List.mem_range] at ha
        simp only [bne_iff_ne, ne_eq]
        omega
      have h2 : [j].filter (fun i => i != j) = [] := by simp
      rw [h1, h2, List.length_append, List.length_range]
      simp
    · have hlt : j < m := by omega
      have h2 : [m].filter (fun i => i != j) = [m] := by
        simp only [List.filter_cons]
        rw [show (m != j) = true by simp [show m ≠ j from fun hc => hj hc.symm]]
        rfl
      rw [h2, List.length_append, ih hlt]
      simp only [List.length_cons, List.length_nil]
      omega

lemma usersOf_length (c : DateCollection) : (usersOf c).length = c.length := by
  unfold usersOf
  exact List.length_map c _

lemma rotationOrder_length (c : DateCollection) (fc : String)
    (h : fc ∈ usersOf c) : (rotationOrder c fc).length = c.length := by
  unfold rotationOrder
  rw [List.length_map, List.length_cons]
  have hj : (usersOf c).indexOf fc < (usersOf c).length :=
    List.indexOf_lt_length.mpr h
  rw [length_filter_ne_range _ _ hj, usersOf_length] at *
  omega

lemma rotationOrder_mem (c : DateCollection) (fc : String)
    (h : fc ∈ usersOf c) : ∀ x ∈ rotationOrder c fc, x ∈ usersOf c := by
  unfold rotationOrder
  intro x hx
  rw [List.mem_map] at hx
  obtain ⟨i, hi, rfl⟩ := hx
  have hin : i < (usersOf c).length := by
    rcases List.mem_cons.mp hi with h1 | h1
    · subst h1
      exact List.indexOf_lt_length.mpr h
    · rw [List.mem_filter, List.mem_range] at h1
      exact h1.1
  exact getD_mem_of_lt _ _ hin

lemma rotationOrder_getD_zero (c : DateCollection) (fc : String)
    (h : fc ∈ usersOf c) : (rotationOrder c fc).getD 0 "" = fc := by
  unfold rotationOrder
  rw [List.map_cons, List.getD_cons_zero]
  exact getD_indexOf _ _ h

/-! ## Resolution of the first-care argument -/

lemma resolveFirstCare_mem (c : DateCollection) (fc f : String)
    (h : resolveFirstCare c fc = some f) : f ∈ usersOf c := by
  unfold resolveFirstCare at h
  by_cases he : fc = ""
  · rw [if_pos he] at h
    exact List.mem_of_mem_head? (by rw [Option.mem_def]; exact h)
  · rw [if_neg he] at h
    by_cases hm : fc ∈ usersOf c
    · rw [if_pos hm] at h
      injection h with h2
      rw [← h2]
      exact hm
    · rw [if_neg hm] at h
      exact Option.noConfusion h

lemma guess_care_weeks_eq (c : DateCollection) (start : Date) (fc : String)
    (c' : DateCollection) (h : guess_care_weeks c start fc = some c') :
    ∃ f, resolveFirstCare c fc = some f ∧
      c' = (scanFold c start (rotationOrder c f)).1 := by
  unfold guess_care_weeks at h
  cases hr : resolveFirstCare c fc with
  | none =>
    rw [hr] at h
    exact Option.noConfusion h
  | some f =>
    rw [hr] at h
    injection h with h2
    exact ⟨f, rfl, h2.symm⟩

lemma length_pos_of_mem_usersOf (c : DateCollection) (f : String)
    (h : f ∈ usersOf c) : 0 < c.length := by
  rw [usersOf_iff] at h
  obtain ⟨p, hp, _⟩ := h
  exact List.length_pos.mpr (List.ne_nil_of_mem hp)

/-- Assignment characterisation at the level of one `guess_care_weeks`
scan: a free weekend date `d ≥ start` of `start`'s year ends up in exactly
the set of the rotation user indexed by (Sundays of `start`'s month before
`start`) + (weeks from `start` to `d`), modulo the number of users. -/
lemma guess_assign_char (c : DateCollection) (start d : Date) (f : String)
    (hf : f ∈ usersOf c)
    (hvs : ValidDate start) (hvd : ValidDate d) (hy : d.year = start.year)
    (hge : dateLe start d = true) (hwe : isWeekend d = true)
    (hfree : dateIsFree c d = true) :
    ∀ u, (hasDate (scanFold c start (rotationOrder c f)).1 u d = true ↔
      u = (rotationOrder c f).getD
        ((sundaysBeforeStart start + weekIndex start d)
          % (rotationOrder c f).length) "") := by
  intro u
  have hpos0 : 0 < c.length := length_pos_of_mem_usersOf c f hf
  have hlen := rotationOrder_length c f hf
  have hpos : 0 < (rotationOrder c f).length := by omega
  have hsub := rotationOrder_mem c f hf
  have hmem : d ∈ scanDates start := by
    rw [mem_scanDates_iff]
    obtain ⟨_, _, hm12, hd1, hd2⟩ := hvd
    refine ⟨hy, month_le_of_dateLe start d hy hge, hm12, hd1, ?_⟩
    rw [← hy]
    exact hd2
  unfold scanFold
  rw [foldl_processDate_free_char start (rotationOrder c f) d hge hwe
    (scanDates start) c 0 hfree hmem hlen hpos hsub u]
  rw [countP_takeWhile_of_sorted (scanDates start) d
    (scanDates_pairwise start) hmem]
  rw [sundaysBefore_split start d hge,
    sundaysBeforeStart_eq_scan start hvs, Nat.zero_add]

/-! ## The claims -/

/-- C2: after a successful `guess_care_weeks`, every weekend date of
`start`'s year lying between `start` and December 31 is either
pre-occupied, or assigned by the call to exactly one user. -/
theorem guess_covers_weekends (c : DateCollection) (start d : Date)
    (fc : String) (c' : DateCollection)
    (hrun : guess_care_weeks c start fc = some c')
    (hvs : ValidDate start) (hvd : ValidDate d) (hy : d.year = start.year)
    (hge : dateLe start d = true) (hwe : isWeekend d = true) :
    dateIsFree c d = false ∨
      ∃ u, u ∈ usersOf c ∧ hasDate c' u d = true ∧
        ∀ v, hasDate c' v d = true → v = u := by
  obtain ⟨f, hres, hc'⟩ := guess_care_weeks_eq c start fc c' hrun
  have hf := resolveFirstCare_mem c fc f hres
  cases hfree : dateIsFree c d with
  | false => exact Or.inl rfl
  | true =>
    right
    have hchar := guess_assign_char c start d f hf hvs hvd hy hge hwe hfree
    refine ⟨(rotationOrder c f).getD ((sundaysBeforeStart start +
      weekIndex start d) % (rotationOrder c f).length) "", ?_, ?_, ?_⟩
    · apply rotationOrder_mem c f hf
      apply getD_mem_of_lt
      apply Nat.mod_lt
      have h1 := rotationOrder_length c f hf
      have h2 := length_pos_of_mem_usersOf c f hf
      omega
    · rw [hc']
      exact (hchar _).mpr rfl
    · intro v hv
      rw [hc'] at hv
      exact (hchar v).mp hv

/-- Witness for C2: two users, start on Saturday 2023-12-30, the free
weekend date 2023-12-30 itself. -/
theorem guess_covers_weekends_witness :
    dateIsFree [("a", []), ("b", [])] ⟨2023, 12, 30⟩ = false ∨
      ∃ u, u ∈ usersOf [("a", []), ("b", [])] ∧
        hasDate ((guess_care_weeks [("a", []), ("b", [])]
          ⟨2023, 12, 30⟩ "a").getD []) u ⟨2023, 12, 30⟩ = true ∧
        ∀ v, hasDate ((guess_care_weeks [("a", []), ("b", [])]
          ⟨2023, 12, 30⟩ "a").getD []) v ⟨2023, 12, 30⟩ = true → v = u :=
  guess_covers_weekends [("a", []), ("b", [])] ⟨2023, 12, 30⟩ ⟨2023, 12, 30⟩
    "a" ((guess_care_weeks [("a", []), ("b", [])] ⟨2023, 12, 30⟩ "a").getD [])
    (by rfl) (by decide) (by decide) (by decide) (by decide) (by decide)

/-- C3: a pre-occupied weekend date is skipped exactly — membership of that
date is unchanged for every user — while the week counter of the scan
equals the number of Sundays of the scanned months for every collection
state and rotation, so the rotation index used for later weekends is
the same as if the occupied weekend had been assigned. -/
theorem guess_skips_occupied (c : DateCollection) (start : Date)
    (fc : String) (c' : DateCollection) (d : Date)
    (hrun : guess_care_weeks c start fc = some c')
    (hwe : isWeekend d = true) (hocc : dateIsFree c d = false) :
    (∀ u, hasDate c' u d = hasDate c u d) ∧
      (∀ (c₂ : DateCollection) (rot : List String),
        (scanFold c₂ start rot).2 = (scanDates start).countP isSunday) := by
  obtain ⟨f, hres, hc'⟩ := guess_care_weeks_eq c start fc c' hrun
  constructor
  · intro u
    rw [hc']
    exact (foldl_processDate_occupied start _ (scanDates start) d c 0 hocc).1 u
  · intro c₂ rot
    unfold scanFold
    rw [foldl_processDate_snd start rot (scanDates start) c₂ 0, Nat.zero_add]

/-- Witness for C3: Saturday 2023-12-09 pre-occupied by user a. -/
theorem guess_skips_occupied_witness :
    (∀ u, hasDate ((guess_care_weeks [("a", [⟨2023, 12, 9⟩]), ("b", [])]
        ⟨2023, 12, 1⟩ "a").getD []) u ⟨2023, 12, 9⟩
      = hasDate [("a", [⟨2023, 12, 9⟩]), ("b", [])] u ⟨2023, 12, 9⟩) ∧
      (∀ (c₂ : DateCollection) (rot : List String),
        (scanFold c₂ ⟨2023, 12, 1⟩ rot).2
          = (scanDates ⟨2023, 12, 1⟩).countP isSunday) :=
  guess_skips_occupied [("a", [⟨2023, 12, 9⟩]), ("b", [])] ⟨2023, 12, 1⟩ "a"
    ((guess_care_weeks [("a", [⟨2023, 12, 9⟩]), ("b", [])]
      ⟨2023, 12, 1⟩ "a").getD []) ⟨2023, 12, 9⟩
    (by rfl) (by decide) (by decide)

/-- C4: every date present in a user's set before `guess_care_weeks` is
still present, in the same user's set, after the call. -/
theorem guess_preserves_existing (c : DateCollection) (start : Date)
    (fc : String) (c' : DateCollection) (u : String) (d : Date)
    (hrun : guess_care_weeks c start fc = some c')
    (hbefore : hasDate c u d = true) : hasDate c' u d = true := by
  obtain ⟨f, hres, hc'⟩ := guess_care_weeks_eq c start fc c' hrun
  rw [hc']
  unfold scanFold
  exact foldl_processDate_mono start _ (scanDates start) u d c 0 hbefore

/-- Witness for C4: user a keeps its pre-existing 2023-12-09. -/
theorem guess_preserves_existing_witness :
    hasDate ((guess_care_weeks [("a", [⟨2023, 12, 9⟩]), ("b", [])]
      ⟨2023, 12, 1⟩ "a").getD []) "a" ⟨2023, 12, 9⟩ = true :=
  guess_preserves_existing [("a", [⟨2023, 12, 9⟩]), ("b", [])]
    ⟨2023, 12, 1⟩ "a"
    ((guess_care_weeks [("a", [⟨2023, 12, 9⟩]), ("b", [])]
      ⟨2023, 12, 1⟩ "a").getD []) "a" ⟨2023, 12, 9⟩ (by rfl) (by decide)

/-- C7: a non-empty `first_care` that is not a user fails the precondition
(`assert first_care in self.dates`) before the scan begins: the call
produces no result and, the assert preceding the loop, no date is ever
appended. -/
theorem guess_unknown_first_care (c : DateCollection) (start : Date)
    (fc : String) (hne : ¬ fc = "") (hnm : ¬ fc ∈ usersOf c) :
    guess_care_weeks c start fc = none := by
  unfold guess_care_weeks resolveFirstCare
  rw [if_neg hne, if_neg hnm]

/-- Witness for C7: unknown user "x". -/
theorem guess_unknown_first_care_witness :
    guess_care_weeks [("a", [])] ⟨2023, 1, 1⟩ "x" = none :=
  guess_unknown_first_care [("a", [])] ⟨2023, 1, 1⟩ "x"
    (by decide) (by decide)

/-- C8: with zero users, `guess_care_weeks` fails before the scan for
every `first_care` (empty: the IndexError of taking the first key;
non-empty: the membership assert), so `% self.nusers` is never evaluated
with a zero divisor. -/
theorem guess_zero_users (start : Date) (fc : String) :
    guess_care_weeks ([] : DateCollection) start fc = none := by
  unfold guess_care_weeks resolveFirstCare
  by_cases he : fc = ""
  · rw [if_pos he]
    rfl
  · rw [if_neg he,
      if_neg (by simp [usersOf] : ¬ fc ∈ usersOf ([] : DateCollection))]

/-- C1 counterexample: two users a and b with no pre-occupied dates,
`start` = Sunday 2023-12-10, `first_care` = "a". The date 2023-12-10 is a
free weekend date of week 0 (no Sunday `s` with `start ≤ s < d`), so the
claim says it goes to `rotation_order[0] = "a"`; the code assigns it to
"b", because the Sunday 2023-12-03 of `start`'s month, strictly before
`start`, already advanced the week counter. -/
theorem guess_rotation_fair_cx :
    guess_care_weeks [("a", []), ("b", [])] ⟨2023, 12, 10⟩ "a"
        = some ((guess_care_weeks [("a", []), ("b", [])]
            ⟨2023, 12, 10⟩ "a").getD []) ∧
      isWeekend ⟨2023, 12, 10⟩ = true ∧
      dateIsFree [("a", []), ("b", [])] ⟨2023, 12, 10⟩ = true ∧
      weekIndex ⟨2023, 12, 10⟩ ⟨2023, 12, 10⟩ = 0 ∧
      (rotationOrder [("a", []), ("b", [])] "a").getD 0 "" = "a" ∧
      hasDate ((guess_care_weeks [("a", []), ("b", [])]
        ⟨2023, 12, 10⟩ "a").getD []) "a" ⟨2023, 12, 10⟩ = false ∧
      hasDate ((guess_care_weeks [("a", []), ("b", [])]
        ⟨2023, 12, 10⟩ "a").getD []) "b" ⟨2023, 12, 10⟩ = true := by
  refine ⟨rfl, rfl, rfl, rfl, rfl, rfl, rfl⟩

/-- C1 (amended): with no pre-occupied dates, the assignee of every
assigned weekend date of week k (0-indexed from `start`'s week) is
`rotation_order[(S0 + k) mod N]` — S0 the number of Sundays of `start`'s
month strictly before `start` — and `first_care` receives the week-0
assignment exactly when `S0 mod N = 0` (in particular whenever `start`
is on or before the first Sunday of its month). -/
theorem guess_rotation_fair (c : DateCollection) (start d : Date)
    (fc : String) (c' : DateCollection)
    (hrun : guess_care_weeks c start fc = some c')
    (hfc : fc ∈ usersOf c) (hne : ¬ fc = "")
    (hempty : ∀ p ∈ c, p.2 = [])
    (hvs : ValidDate start) (hvd : ValidDate d) (hy : d.year = start.year)
    (hge : dateLe start d = true) (hwe : isWeekend d = true) :
    (∀ u, hasDate c' u d = true ↔
        u = (rotationOrder c fc).getD
          ((sundaysBeforeStart start + weekIndex start d) % nusers c) "") ∧
      (sundaysBeforeStart start % nusers c = 0 → weekIndex start d = 0 →
        hasDate c' fc d = true) := by
  have hres : resolveFirstCare c fc = some fc := by
    unfold resolveFirstCare
    rw [if_neg hne, if_pos hfc]
  obtain ⟨f, hres2, hc'⟩ := guess_care_weeks_eq c start fc c' hrun
  rw [hres] at hres2
  injection hres2 with hf2
  subst hf2
  have hfree : dateIsFree c d = true := by
    rw [dateIsFree_iff]
    intro p hp
    rw [hempty p hp]
    exact List.not_mem_nil d
  have hchar := guess_assign_char c start d fc hfc hvs hvd hy hge hwe hfree
  have hlen := rotationOrder_length c fc hfc
  have hnus : nusers c = (rotationOrder c fc).length := by
    unfold nusers
    omega
  constructor
  · intro u
    rw [hc', hnus]
    exact hchar u
  · intro hS0 hweek0
    rw [hc', hchar fc, hweek0, Nat.add_zero]
    rw [hnus] at hS0
    rw [hS0]
    exact (rotationOrder_getD_zero c fc hfc).symm

/-- Witness for the amended C1: start Friday 2023-12-01 (S0 = 0), the
week-0 Saturday 2023-12-02. -/
theorem guess_rotation_fair_witness :
    (∀ u, hasDate ((guess_care_weeks [("a", []), ("b", [])]
        ⟨2023, 12, 1⟩ "a").getD []) u ⟨2023, 12, 2⟩ = true ↔
        u = (rotationOrder [("a", []), ("b", [])] "a").getD
          ((sundaysBeforeStart ⟨2023, 12, 1⟩ +
            weekIndex ⟨2023, 12, 1⟩ ⟨2023, 12, 2⟩)
              % nusers [("a", []), ("b", [])]) "") ∧
      (sundaysBeforeStart ⟨2023, 12, 1⟩ % nusers [("a", []), ("b", [])] = 0 →
        weekIndex ⟨2023, 12, 1⟩ ⟨2023, 12, 2⟩ = 0 →
        hasDate ((guess_care_weeks [("a", []), ("b", [])]
          ⟨2023, 12, 1⟩ "a").getD []) "a" ⟨2023, 12, 2⟩ = true) :=
  guess_rotation_fair [("a", []), ("b", [])] ⟨2023, 12, 1⟩ ⟨2023, 12, 2⟩
    "a" ((guess_care_weeks [("a", []), ("b", [])] ⟨2023, 12, 1⟩ "a").getD [])
    (by rfl) (by decide) (by decide) (by decide) (by decide) (by decide)
    (by decide) (by decide) (by decide)

/-- C5 counterexample: `start` = Saturday 2022-12-31, two users, no
pre-occupied dates. Saturday 2022-12-31 and Sunday 2023-01-01 form one
calendar weekend, both on/after `start` and both free, but the scan stops
at December 31 of `start`'s year: the Saturday is assigned to "a" while
the Sunday is assigned to nobody, so the weekend does not go to a single
user. -/
theorem guess_weekend_same_user_cx :
    weekday ⟨2022, 12, 31⟩ = 5 ∧
      nextDate ⟨2022, 12, 31⟩ = ⟨2023, 1, 1⟩ ∧
      weekday ⟨2023, 1, 1⟩ = 6 ∧
      dateIsFree [("a", []), ("b", [])] ⟨2022, 12, 31⟩ = true ∧
      dateIsFree [("a", []), ("b", [])] ⟨2023, 1, 1⟩ = true ∧
      dateLe ⟨2022, 12, 31⟩ ⟨2022, 12, 31⟩ = true ∧
      dateLe ⟨2022, 12, 31⟩ ⟨2023, 1, 1⟩ = true ∧
      guess_care_weeks [("a", []), ("b", [])] ⟨2022, 12, 31⟩ "a"
        = some ((guess_care_weeks [("a", []), ("b", [])]
            ⟨2022, 12, 31⟩ "a").getD []) ∧
      hasDate ((guess_care_weeks [("a", []), ("b", [])]
        ⟨2022, 12, 31⟩ "a").getD []) "a" ⟨2022, 12, 31⟩ = true ∧
      hasDate ((guess_care_weeks [("a", []), ("b", [])]
        ⟨2022, 12, 31⟩ "a").getD []) "a" ⟨2023, 1, 1⟩ = false ∧
      hasDate ((guess_care_weeks [("a", []), ("b", [])]
        ⟨2022, 12, 31⟩ "a").getD []) "b" ⟨2023, 1, 1⟩ = false := by
  refine ⟨rfl, rfl, rfl, rfl, rfl, rfl, rfl, rfl, rfl, rfl, rfl⟩

/-- C5 (amended): for every calendar weekend whose Saturday and Sunday are
both on/after `start`, both free, and both within `start`'s year (the
scanned range — this excludes only a December-31 Saturday, whose Sunday
falls in the next year and is never scanned), the two days are assigned to
the same user, including weekends straddling a month boundary. -/
theorem guess_weekend_same_user (c : DateCollection) (start sat : Date)
    (fc : String) (c' : DateCollection)
    (hrun : guess_care_weeks c start fc = some c')
    (hvs : ValidDate start) (hvsat : ValidDate sat)
    (hwd : weekday sat = 5)
    (hys : sat.year = start.year)
    (hyn : (nextDate sat).year = start.year)
    (hge : dateLe start sat = true)
    (hf1 : dateIsFree c sat = true)
    (hf2 : dateIsFree c (nextDate sat) = true) :
    ∃ u, hasDate c' u sat = true ∧ hasDate c' u (nextDate sat) = true := by
  obtain ⟨f, hres, hc'⟩ := guess_care_weeks_eq c start fc c' hrun
  have hf := resolveFirstCare_mem c fc f hres
  have hvsun : ValidDate (nextDate sat) := nextDate_valid sat hvsat
  have hwsat : isWeekend sat = true := by
    unfold isWeekend
    rw [hwd]
    decide
  have hwsun_eq : weekday (nextDate sat) = 6 := by
    rw [weekday_nextDate sat hvsat, hwd]
  have hwsun : isWeekend (nextDate sat) = true := by
    unfold isWeekend
    rw [hwsun_eq]
    decide
  have hgesun : dateLe start (nextDate sat) = true :=
    dateLe_trans start sat (nextDate sat) hge
      (dateLe_of_lt sat (nextDate sat) (dateLt_nextDate_self sat))
  have hchar1 := guess_assign_char c start sat f hf hvs hvsat hys hge
    hwsat hf1
  have hchar2 := guess_assign_char c start (nextDate sat) f hf hvs hvsun
    hyn hgesun hwsun hf2
  have hwidx : weekIndex start (nextDate sat) = weekIndex start sat := by
    unfold weekIndex
    apply List.countP_congr
    intro x hx
    have hvx := (scanDates_valid start x hvs hx).1
    constructor
    · intro h
      rw [Bool.and_eq_true, Bool.and_eq_true] at h
      rw [Bool.and_eq_true, Bool.and_eq_true]
      obtain ⟨h1, h2, h3⟩ := h
      refine ⟨h1, h2, ?_⟩
      have hle : dateLe x sat = true :=
        (dateLt_nextDate_iff sat x hvsat hvx).mp h3
      apply dateLt_of_le_of_ne x sat hle
      intro hxe
      unfold isSunday at h1
      rw [hxe, hwd] at h1
      exact absurd (of_decide_eq_true h1) (by omega)
    · intro h
      rw [Bool.and_eq_true, Bool.and_eq_true] at h
      rw [Bool.and_eq_true, Bool.and_eq_true]
      obtain ⟨h1, h2, h3⟩ := h
      exact ⟨h1, h2, (dateLt_nextDate_iff sat x hvsat hvx).mpr
        (dateLe_of_lt x sat h3)⟩
  refine ⟨(rotationOrder c f).getD ((sundaysBeforeStart start +
      weekIndex start sat) % (rotationOrder c f).length) "", ?_, ?_⟩
  · rw [hc']
    exact (hchar1 _).mpr rfl
  · rw [hc']
    apply (hchar2 _).mpr
    rw [hwidx]

/-- Witness for the amended C5: the weekend 2023-12-02 / 2023-12-03. -/
theorem guess_weekend_same_user_witness :
    ∃ u, hasDate ((guess_care_weeks [("a", []), ("b", [])]
        ⟨2023, 12, 1⟩ "a").getD []) u ⟨2023, 12, 2⟩ = true ∧
      hasDate ((guess_care_weeks [("a", []), ("b", [])]
        ⟨2023, 12, 1⟩ "a").getD []) u (nextDate ⟨2023, 12, 2⟩) = true :=
  guess_weekend_same_user [("a", []), ("b", [])] ⟨2023, 12, 1⟩
    ⟨2023, 12, 2⟩ "a"
    ((guess_care_weeks [("a", []), ("b", [])] ⟨2023, 12, 1⟩ "a").getD [])
    (by rfl) (by decide) (by decide) (by decide) (by decide) (by decide)
    (by decide) (by decide) (by decide)

/-- C6: the week counter of the scan counts every Sunday of every scanned
month — including Sundays of `start`'s month strictly before `start` —
whatever the collection state; consequently a free weekend date of week 0
(the first eligible weekend) is assigned to the rotation user of index
S0 mod N, with S0 the number of Sundays of `start`'s month strictly
before `start`, rather than index 0. -/
theorem guess_counter_counts_all_sundays (c : DateCollection)
    (start d : Date) (fc : String) (c' : DateCollection)
    (hrun : guess_care_weeks c start fc = some c')
    (hfc : fc ∈ usersOf c) (hne : ¬ fc = "")
    (hvs : ValidDate start) (hvd : ValidDate d) (hy : d.year = start.year)
    (hge : dateLe start d = true) (hwe : isWeekend d = true)
    (hfree : dateIsFree c d = true) (hweek0 : weekIndex start d = 0) :
    (∀ (c₂ : DateCollection) (rot : List String),
        (scanFold c₂ start rot).2 = (scanDates start).countP isSunday) ∧
      (∀ u, hasDate c' u d = true ↔
        u = (rotationOrder c fc).getD
          (sundaysBeforeStart start % nusers c) "") := by
  have hres : resolveFirstCare c fc = some fc := by
    unfold resolveFirstCare
    rw [if_neg hne, if_pos hfc]
  obtain ⟨f, hres2, hc'⟩ := guess_care_weeks_eq c start fc c' hrun
  rw [hres] at hres2
  injection hres2 with hf2
  subst hf2
  have hchar := guess_assign_char c start d fc hfc hvs hvd hy hge hwe hfree
  have hlen := rotationOrder_length c fc hfc
  have hnus : nusers c = (rotationOrder c fc).length := by
    unfold nusers
    omega
  constructor
  · intro c₂ rot
    unfold scanFold
    rw [foldl_processDate_snd start rot (scanDates start) c₂ 0, Nat.zero_add]
  · intro u
    rw [hc', hnus]
    have := hchar u
    rw [hweek0, Nat.add_zero] at this
    exact this

/-- Witness for C6: start Sunday 2023-12-10 with S0 = 1 and two users, on
the week-0 date 2023-12-10: the index is 1 mod 2 = 1 (user "b"). -/
theorem guess_counter_counts_all_sundays_witness :
    (∀ (c₂ : DateCollection) (rot : List String),
        (scanFold c₂ ⟨2023, 12, 10⟩ rot).2
          = (scanDates ⟨2023, 12, 10⟩).countP isSunday) ∧
      (∀ u, hasDate ((guess_care_weeks [("a", []), ("b", [])]
          ⟨2023, 12, 10⟩ "a").getD []) u ⟨2023, 12, 10⟩ = true ↔
        u = (rotationOrder [("a", []), ("b", [])] "a").getD
          (sundaysBeforeStart ⟨2023, 12, 10⟩
            % nusers [("a", []), ("b", [])]) "") :=
  guess_counter_counts_all_sundays [("a", []), ("b", [])] ⟨2023, 12, 10⟩
    ⟨2023, 12, 10⟩ "a"
    ((guess_care_weeks [("a", []), ("b", [])] ⟨2023, 12, 10⟩ "a").getD [])
    (by rfl) (by decide) (by decide) (by decide) (by decide) (by decide)
    (by decide) (by decide) (by decide) (by decide)

/-! ## Holidays construction -/

lemma hasDate_cons (p : String × DateSet) (rest : DateCollection)
    (u : String) (d : Date) :
    hasDate (p :: rest) u d
      = ((p.1 == u && p.2.contains d) || hasDate rest u d) := rfl

lemma usersOf_cons (p : String × DateSet) (rest : DateCollection) :
    usersOf (p :: rest) = p.1 :: usersOf rest := rfl

lemma hasDate_false_of_not_user (c : DateCollection) (u : String) (d : Date)
    (h : ¬ u ∈ usersOf c) : hasDate c u d = false := by
  rw [hasDate_eq_false_iff, hasDate_iff]
  rintro ⟨p, hp, h1, _⟩
  exact h ((usersOf_iff c u).mpr ⟨p, hp, h1⟩)

/-- C9: constructing `Holidays` moves the entry under the reserved key
"férié" (matched case-sensitively) into `public` and removes that key from
the regular user mapping: the reserved key is no longer a user, every
other user's dates are untouched, `public` holds exactly the reserved
entry's dates; when the reserved key is absent, the mapping is unchanged
and `public` is empty. -/
theorem holidays_extracts_public (dates : DateCollection) :
    (dates.map Prod.fst).Nodup →
      ((¬ "férié" ∈ usersOf (holidaysInit dates).1) ∧
        (∀ u, ¬ u = "férié" →
          ∀ d, hasDate (holidaysInit dates).1 u d = hasDate dates u d) ∧
        (∀ d, (holidaysInit dates).2.contains d = hasDate dates "férié" d) ∧
        (¬ "férié" ∈ usersOf dates → holidaysInit dates = (dates, []))) := by
  induction dates with
  | nil =>
    intro _
    refine ⟨?_, ?_, ?_, ?_⟩
    · simp [holidaysInit, usersOf]
    · intro u _ d
      rfl
    · intro d
      rfl
    · intro _
      rfl
  | cons p rest ih =>
    intro hnd
    rw [List.map_cons, List.nodup_cons] at hnd
    obtain ⟨hp1, hnd2⟩ := hnd
    obtain ⟨ih1, ih2, ih3, ih4⟩ := ih hnd2
    by_cases hpf : p.1 = "férié"
    · have hpred : (p.1 == "férié") = true := by simp [hpf]
      have hinit : holidaysInit (p :: rest) = (rest, p.2) := by
        unfold holidaysInit
        rw [@List.find?_cons_of_pos _ (fun q => q.1 == "férié") p rest hpred,
          @List.eraseP_cons_of_pos _ p rest (fun q => q.1 == "férié") hpred]
      rw [hinit]
      have hrest_no : ¬ "férié" ∈ usersOf rest := by
        rw [← hpf]
        unfold usersOf
        exact hp1
      refine ⟨hrest_no, ?_, ?_, ?_⟩
      · intro u hu d
        rw [hasDate_cons]
        have hne : (p.1 == u) = false := by
          rw [hpf]
          simp
          intro hc
          exact hu hc.symm
        rw [hne, Bool.false_and, Bool.false_or]
      · intro d
        rw [hasDate_cons, hpred, Bool.true_and,
          hasDate_false_of_not_user rest "férié" d hrest_no, Bool.or_false]
      · intro hno
        exfalso
        apply hno
        rw [usersOf_cons, hpf]
        exact List.mem_cons_self _ _
    · have hpred : (p.1 == "férié") = false := by simp [hpf]
      have hfindc : (p :: rest).find? (fun q => q.1 == "férié")
          = rest.find? (fun q => q.1 == "férié") :=
        @List.find?_cons_of_neg _ (fun q => q.1 == "férié") p rest
          (by simp [hpred])
      cases hfr : rest.find? (fun q => q.1 == "férié") with
      | none =>
        have hinit : holidaysInit (p :: rest) = (p :: rest, []) := by
          unfold holidaysInit
          rw [hfindc, hfr]
        have hrest_no : ¬ "férié" ∈ usersOf rest := by
          rw [usersOf_iff]
          rintro ⟨q, hq, hq1⟩
          have hnone := List.find?_eq_none.mp hfr q hq
          apply hnone
          simp [hq1]
        rw [hinit]
        refine ⟨?_, ?_, ?_, ?_⟩
        · rw [usersOf_cons]
          intro hmem
          rcases List.mem_cons.mp hmem with h1 | h1
          · exact hpf h1.symm
          · exact hrest_no h1
        · intro u _ d
          rfl
        · intro d
          rw [hasDate_cons, hpred, Bool.false_and, Bool.false_or,
            hasDate_false_of_not_user rest "férié" d hrest_no]
          rfl
        · intro _
          rfl
      | some q =>
        have hinit : holidaysInit (p :: rest)
            = (p :: rest.eraseP (fun r => r.1 == "férié"), q.2) := by
          unfold holidaysInit
          rw [hfindc, hfr, @List.eraseP_cons_of_neg _ p rest
            (fun r => r.1 == "férié") (by simp [hpred])]
        have hinitr : holidaysInit rest
            = (rest.eraseP (fun r => r.1 == "férié"), q.2) := by
          unfold holidaysInit
          rw [hfr]
        rw [hinitr] at ih1 ih2 ih3
        have ih1x : ¬ "férié" ∈
            usersOf (rest.eraseP (fun r => r.1 == "férié")) := ih1
        have ih2x : ∀ u, ¬ u = "férié" → ∀ d,
            hasDate (rest.eraseP (fun r => r.1 == "férié")) u d
              = hasDate rest u d := ih2
        have ih3x : ∀ d, q.2.contains d = hasDate rest "férié" d := ih3
        rw [hinit]
        refine ⟨?_, ?_, ?_, ?_⟩
        · rw [usersOf_cons]
          intro hmem
          rcases List.mem_cons.mp hmem with h1 | h1
          · exact hpf h1.symm
          · exact ih1x h1
        · intro u hu d
          rw [hasDate_cons, hasDate_cons, ih2x u hu d]
        · intro d
          rw [hasDate_cons, hpred, Bool.false_and, Bool.false_or, ih3x d]
        · intro hno
          exfalso
          apply hno
          have hqm := List.mem_of_find?_eq_some hfr
          have hqp0 := List.find?_some hfr
          have hqp : (q.1 == "férié") = true := hqp0
          rw [usersOf_cons]
          exact List.mem_cons_of_mem _
            ((usersOf_iff rest _).mpr ⟨q, hqm, by simpa using hqp⟩)

/-- Witness for C9: a mapping with a regular user and the reserved key. -/
theorem holidays_extracts_public_witness :
    (¬ "férié" ∈ usersOf
        (holidaysInit [("a", [⟨2023, 1, 1⟩]), ("férié", [⟨2023, 5, 1⟩])]).1) ∧
      (∀ u, ¬ u = "férié" → ∀ d,
        hasDate (holidaysInit
          [("a", [⟨2023, 1, 1⟩]), ("férié", [⟨2023, 5, 1⟩])]).1 u d
        = hasDate [("a", [⟨2023, 1, 1⟩]), ("férié", [⟨2023, 5, 1⟩])] u d) ∧
      (∀ d, (holidaysInit
          [("a", [⟨2023, 1, 1⟩]), ("férié", [⟨2023, 5, 1⟩])]).2.contains d
        = hasDate [("a", [⟨2023, 1, 1⟩]), ("férié", [⟨2023, 5, 1⟩])]
            "férié" d) ∧
      (¬ "férié" ∈ usersOf [("a", [⟨2023, 1, 1⟩]), ("férié", [⟨2023, 5, 1⟩])] →
        holidaysInit [("a", [⟨2023, 1, 1⟩]), ("férié", [⟨2023, 5, 1⟩])]
          = ([("a", [⟨2023, 1, 1⟩]), ("férié", [⟨2023, 5, 1⟩])], [])) :=
  holidays_extracts_public
    [("a", [⟨2023, 1, 1⟩]), ("férié", [⟨2023, 5, 1⟩])] (by decide)

end Vacances
